import Mathlib

/-!
Verification of the `console-taskgraph` scheduler (`src/taskgraph.js`).

The first part of this file is a shallow embedding of the code that is
actually present in `src/taskgraph.js`: the `TaskGraph` class with its
`run` entry point, the `refresh` admission pass and the `_runNode`
per-node executor.  Task bodies are modelled by the observable behaviour
they exhibit when they settle (return a result, throw, or call
`utils.skip` and return its value); completion order of in-flight bodies
is environment-chosen, which is captured by a small-step relation.

Later parts model, from the specification, the `Lock` counting semaphore
and the target-pruning computation, which the specification and the
repository's test files refer to but which are absent from
`src/taskgraph.js`.
-/

namespace TG

/-- JavaScript values as far as this program manipulates them: booleans,
numbers, strings and (nested) plain objects. -/
inductive Value where
  | vbool : Bool → Value
  | vnat : Nat → Value
  | vstr : String → Value
  | vobj : List (String × Value) → Value

/-- A JavaScript object: an ordered association list of fields.  The
`context` map and task results have this shape. -/
abbrev Obj := List (String × Value)

/-- The keys of an object, in order (`Object.keys`). -/
def keys (o : Obj) : List String := o.map Prod.fst

/-- Observable behaviour of a task body (`task.run`) once it settles:
it resolves with a result (`ret none` models a falsy return such as
`undefined`), rejects with an error (`err`), or calls `utils.skip(arg)`
and returns skip's return value (`skipRet`), as in
`return utils.skip(arg)`. -/
inductive Body where
  | ret : Option Obj → Body
  | err : String → Body
  | skipRet : Obj → Body

/-- A task as submitted to the `TaskGraph` constructor, after the
constructor's defaulting of `requires`/`provides` to `[]`. -/
structure Task where
  title : String
  requires : List String
  provides : List String
  body : Body

/-- Node lifecycle states occurring in `src/taskgraph.js`.  The file
assigns only the strings `pending`, `running`, `skipped` and
`finished`; no `failed` state appears anywhere in it. -/
inductive NState where
  | pending
  | running
  | skipped
  | finished
deriving DecidableEq

/-- A node: one task plus its current state (`this.nodes` entries).
`done` records whether the body's promise has settled, which in the
JavaScript is implicit in the control flow of `_runNode`. -/
structure Node where
  task : Task
  state : NState
  done : Bool

/-- Renderer events as emitted by the code in `src/taskgraph.js`:
`renderer.start`, `renderer.stop`, and `renderer.update(node, 'state', v)`
calls.  (`log`/`status`/`step` updates are produced only by `utils`
calls that the modelled bodies do not make; no `skip` or `fail` update
is emitted anywhere in `src/taskgraph.js`.) -/
inductive Update where
  | start : Update
  | stop : Update
  | state : String → String → Update
deriving DecidableEq

/-- The run's state: the node list, the shared `context`, whether the
promise returned by `run` has settled (`some none` = resolved,
`some (some e)` = rejected with error `e`), and the sequence of renderer
events so far. -/
structure GState where
  nodes : List Node
  context : Obj
  settled : Option (Option String)
  log : List Update

/-- The readiness test of `refresh`:
`node.state === 'pending' && node.task.requires.every(k => k in context)`. -/
def ready (ctx : Obj) (n : Node) : Bool :=
  decide (n.state = NState.pending) &&
    n.task.requires.all (fun k => decide (k ∈ keys ctx))

/-- The resolution test of `refresh`:
`n.state === 'finished' || n.state === 'skipped'`. -/
def isTerminal (n : Node) : Bool :=
  decide (n.state = NState.finished) || decide (n.state = NState.skipped)

/-- Admission of a single node, the synchronous prefix of `_runNode`:
a ready pending node becomes `running`. -/
def admitOne (ctx : Obj) (n : Node) : Node :=
  if ready ctx n then { n with state := NState.running } else n

/-- The admission pass of `refresh` over the node list. -/
def admitAll (ctx : Obj) (ns : List Node) : List Node :=
  ns.map (admitOne ctx)

/-- The renderer notifications of the admission pass, in node order. -/
def admitLogs (ctx : Obj) (ns : List Node) : List Update :=
  ns.filterMap
    (fun n => if ready ctx n then some (Update.state n.task.title "running") else none)

/-- The resolution check at the end of `refresh`: resolve when every
node is finished or skipped.  Settling is first-wins, so this is a no-op
if the promise has already settled; the renderer `stop` (from `run`'s
`finally`) follows settlement. -/
def resolveCheck (s : GState) : GState :=
  if s.settled = none ∧ s.nodes.all isTerminal then
    { s with settled := some none, log := s.log ++ [Update.stop] }
  else s

/-- The `refresh` closure of `run`: one pass over the node list admitting
every ready pending node, then the resolution check. -/
def refresh (s : GState) : GState :=
  resolveCheck { s with nodes := admitAll s.context s.nodes,
                        log := s.log ++ admitLogs s.context s.nodes }

/-- Rejection of the promise returned by `run` (via `.catch(reject)`):
first settlement wins, and `run`'s `finally` calls `renderer.stop` as the
promise settles. -/
def settleReject (s : GState) (m : String) : GState :=
  if s.settled = none then
    { s with settled := some (some m), log := s.log ++ [Update.stop] }
  else s

/-- Replace node `i`. -/
def setNode (s : GState) (i : Nat) (n : Node) : GState :=
  { s with nodes := s.nodes.set i n }

/-- The first loop of the result check in `_runNode`: for each key of the
result, `assert(!(key in context), ...)` then
`assert(task.provides.indexOf(key) !== -1, ...)`; the first failing
assertion throws with its message. -/
def checkKeys (ctx : Obj) (t : Task) : List String → Option String
  | [] => none
  | k :: rest =>
    if k ∈ keys ctx then
      some ("Task " ++ t.title ++ " provided " ++ k ++ ", but it has already been provided")
    else if k ∈ t.provides then checkKeys ctx t rest
    else some ("Task " ++ t.title ++ " provided unexpected " ++ k)

/-- The second loop of the result check: for each declared `provides`
key, `assert(key in result, ...)`. -/
def checkProvides (t : Task) (resultKeys : List String) : List String → Option String
  | [] => none
  | p :: rest =>
    if p ∈ resultKeys then checkProvides t resultKeys rest
    else some ("Task " ++ t.title ++ " did not provide expected " ++ p)

/-- The whole result-contract check of `_runNode` (lines 150-156): the
first failing assertion's message, or `none` when the result passes. -/
def checkResult (ctx : Obj) (t : Task) (result : Obj) : Option String :=
  match checkKeys ctx t (keys result) with
  | some e => some e
  | none => checkProvides t (keys result) t.provides

/-- The falsy-result convenience of `_runNode` (lines 144-147): a falsy
result with at most one `provides` key is replaced by `{[key]: true}` or
`{}`; with more than one key the assertion throws. -/
def synthFalsy (t : Task) (r : Option Obj) : Except String Obj :=
  match r with
  | some result => Except.ok result
  | none =>
    if t.provides.length ≤ 1 then
      Except.ok (match t.provides with
        | [k] => [(k, Value.vbool true)]
        | _ => [])
    else
      Except.error ("Task " ++ t.title ++
        " provides multiple results, but did not return any values")

/-- The tail of `_runNode` after the body has produced a (truthy or
synthesized) result: validate it, `Object.assign` it into the context,
transition to `finished` unless `utils.skip` already set `skipped`,
notify the renderer, and call `refresh`.  A failing assertion instead
rejects the run's promise, leaving the node state untouched and calling
no `refresh`. -/
def applyResult (s : GState) (i : Nat) (n : Node) (result : Obj) : GState :=
  match checkResult s.context n.task result with
  | some e => settleReject (setNode s i { n with done := true }) e
  | none =>
    let s1 : GState := { s with context := s.context ++ result }
    if n.state = NState.skipped then
      refresh (setNode s1 i { n with done := true })
    else
      let s2 := setNode s1 i { n with state := NState.finished, done := true }
      refresh { s2 with log := s2.log ++ [Update.state n.task.title "finished"] }

/-- Settlement of the body of running node `i`, covering the rest of
`_runNode`.  A thrown error rejects the run's promise (`.catch(reject)`
in `run`) with no state transition and no renderer update — the code in
`src/taskgraph.js` has no catch inside `_runNode`.  `utils.skip` sets the
node to `skipped` and notifies the renderer, and its argument flows back
as the body's result. -/
def complete (s : GState) (i : Nat) : GState :=
  match s.nodes[i]? with
  | none => s
  | some n =>
    if n.state = NState.running ∧ n.done = false then
      match n.task.body with
      | Body.err m => settleReject (setNode s i { n with done := true }) m
      | Body.ret r =>
        match synthFalsy n.task r with
        | Except.error e => settleReject (setNode s i { n with done := true }) e
        | Except.ok result => applyResult s i n result
      | Body.skipRet arg =>
        let nSkip : Node := { n with state := NState.skipped }
        let sSkip : GState :=
          { s with nodes := s.nodes.set i nSkip,
                   log := s.log ++ [Update.state n.task.title "skipped"] }
        applyResult sSkip i nSkip arg
    else s

/-- A node built by the `TaskGraph` constructor: `{state: 'pending', task}`. -/
def initNode (t : Task) : Node := ⟨t, NState.pending, false⟩

/-- The state of a run just after `run(context)` has called
`renderer.start` and the initial `refresh()`. -/
def initState (tasks : List Task) (ctx0 : Obj) : GState :=
  refresh { nodes := tasks.map initNode, context := ctx0,
            settled := none, log := [Update.start] }

/-- Node `i`'s body may settle now: the node exists, is `running`, and
its body has not settled yet. -/
def CanComplete (s : GState) (i : Nat) : Prop :=
  ∃ n, s.nodes[i]? = some n ∧ n.state = NState.running ∧ n.done = false

/-- The states a run of `TaskGraph.run` can reach: the initial admission
pass, then any environment-chosen order of body settlements. -/
inductive Reachable (tasks : List Task) (ctx0 : Obj) : GState → Prop where
  | init : Reachable tasks ctx0 (initState tasks ctx0)
  | step {s : GState} {i : Nat} :
      Reachable tasks ctx0 s → CanComplete s i → Reachable tasks ctx0 (complete s i)

/-! Concrete runs used to evaluate the scheduler on the scenarios of the
repository's test files. -/

/-- The single throwing task of the `renders failures` test. -/
def failTask : Task := ⟨"FAIL", [], [], Body.err "uhoh"⟩

/-- The first failing task of the drain test (`completes running tasks
before throwing a failure`). -/
def drainF1 : Task := ⟨"F1", [], [], Body.err "uhoh 1"⟩

/-- The succeeding task of the drain test, still in flight when `F1`
fails. -/
def drainOK : Task := ⟨"OK", [], [], Body.ret none⟩

/-- A task that fails immediately. -/
def admitA : Task := ⟨"A", [], [], Body.err "uhoh"⟩

/-- A task already running when `A` fails, providing key `k`. -/
def admitB : Task := ⟨"B", [], ["k"], Body.ret (some [("k", Value.vbool true)])⟩

/-- A task pending on `k` when `A` fails. -/
def admitC : Task := ⟨"C", ["k"], [], Body.ret none⟩

/-- The skipping task of the `utils.skip` test: its body ends with
`return skip({provides: {a: 10, b: 20}})`. -/
def skipTask : Task :=
  ⟨"SKIP", [], ["a", "b"],
    Body.skipRet [("provides", Value.vobj [("a", Value.vnat 10), ("b", Value.vnat 20)])]⟩

/-- A task used to exercise the result contract: provides `a`, returns
nothing. -/
def wTask : Task := ⟨"T", [], ["a"], Body.ret none⟩

/-- A two-provides task that returns nothing (the falsy contract
violation). -/
def wTask2 : Task := ⟨"T2", [], ["a", "b"], Body.ret none⟩

/-- A running node for `wTask`. -/
def wNode : Node := ⟨wTask, NState.running, false⟩

/-- A running node for `wTask2`. -/
def wNode2 : Node := ⟨wTask2, NState.running, false⟩

/-- A mid-run state with `wNode` running. -/
def wState : GState := ⟨[wNode], [], none, [Update.start, Update.state "T" "running"]⟩

/-- A mid-run state with `wNode2` running. -/
def wState2 : GState := ⟨[wNode2], [], none, [Update.start, Update.state "T2" "running"]⟩

/-- A task providing `x` with a falsy return, the head of a two-task
chain. -/
def c4TaskP : Task := ⟨"P", [], ["x"], Body.ret none⟩

/-- A task requiring `x`, the tail of the chain. -/
def c4TaskQ : Task := ⟨"Q", ["x"], [], Body.ret none⟩

/-- A node in a terminal state of this version of the code: `finished`
or `skipped` (the resolution condition of `refresh`). -/
def termNode (n : Node) : Prop :=
  n.state = NState.finished ∨ n.state = NState.skipped

/-- A task body that succeeds and honours its declared contract: it
resolves (never throws), and its result keys are exactly its declared
`provides` (a falsy return requires at most one declared key, which the
falsy synthesis then satisfies exactly). -/
def BodyOK (t : Task) : Prop :=
  match t.body with
  | Body.ret (some m) => keys m = t.provides
  | Body.ret none => t.provides.length ≤ 1
  | Body.skipRet arg => keys arg = t.provides
  | Body.err _ => False

/-- A run input in which no node fails: every body honours its contract,
no two tasks provide the same key, and no task provides a key already in
the initial context. -/
def WellFormed (ctx0 : Obj) (tasks : List Task) : Prop :=
  (∀ t ∈ tasks, BodyOK t) ∧
  List.Pairwise (fun t1 t2 => ∀ k ∈ t1.provides, k ∉ t2.provides) tasks ∧
  (∀ t ∈ tasks, ∀ k ∈ t.provides, k ∉ keys ctx0)

/-- Acyclicity of the requires/provides relationships: some ranking of
the tasks exists under which every required key is either pre-seeded or
provided by a strictly lower-ranked task. -/
def Topo (ctx0 : Obj) (tasks : List Task) : Prop :=
  ∃ rank : Nat → Nat, ∀ (i : Nat) (ti : Task), tasks[i]? = some ti →
    ∀ k ∈ ti.requires,
      k ∈ keys ctx0 ∨
      ∃ (j : Nat) (tj : Task), tasks[j]? = some tj ∧ rank j < rank i ∧ k ∈ tj.provides

/-- Weight of a node for the termination measure: pending work counts 2,
in-flight work 1, terminal work 0. -/
def wt (n : Node) : Nat :=
  match n.state with
  | NState.pending => 2
  | NState.running => 1
  | NState.skipped => 0
  | NState.finished => 0

/-- Termination measure of a run state. -/
def workLeft (s : GState) : Nat := (s.nodes.map wt).sum

/-- The inductive invariant of a well-formed run of `TaskGraph.run`:
the node list carries the submitted tasks; the promise never rejects;
each terminal node's provides are in the context, whose keys are exactly
the initial keys plus the terminal provides; after each admission pass
no pending node is ready; a body has settled exactly for terminal
nodes; and the promise has resolved exactly when every node is
terminal. -/
structure Inv (ctx0 : Obj) (tasks : List Task) (s : GState) : Prop where
  lenEq : s.nodes.length = tasks.length
  taskEq : ∀ (i : Nat), (s.nodes[i]?).map Node.task = tasks[i]?
  noReject : ∀ e, s.settled ≠ some (some e)
  termProv : ∀ (i : Nat) (n : Node), s.nodes[i]? = some n → termNode n →
    ∀ k ∈ n.task.provides, k ∈ keys s.context
  ctxChar : ∀ k, k ∈ keys s.context ↔
    (k ∈ keys ctx0 ∨
     ∃ (i : Nat) (n : Node), s.nodes[i]? = some n ∧ termNode n ∧ k ∈ n.task.provides)
  noReady : ∀ (i : Nat) (n : Node), s.nodes[i]? = some n → n.state = NState.pending →
    ∃ k ∈ n.task.requires, k ∉ keys s.context
  doneIff : ∀ (i : Nat) (n : Node), s.nodes[i]? = some n → (n.done = true ↔ termNode n)
  resolvedIff : s.settled = some none ↔
    ∀ (i : Nat) (n : Node), s.nodes[i]? = some n → termNode n

/-- The renderer-protocol invariant of a run: the log opens with the
single `start` event, and contains exactly one `stop` exactly once the
promise has settled. -/
def logOK (s : GState) : Prop :=
  s.log.head? = some Update.start ∧
  s.log.count Update.start = 1 ∧
  s.log.count Update.stop = (if s.settled = none then 0 else 1)

/-- Modelled from the spec: the `Lock` counting semaphore of §4.1 —
capacity `N` and held-count `n` — which is absent from
`src/taskgraph.js` although both test files import `{Lock}` from it. -/
structure Lock where
  cap : Nat
  held : Nat

/-- Modelled from the spec: `available() -> bool` (n < N). -/
def Lock.available (l : Lock) : Bool := l.held < l.cap

/-- Modelled from the spec: `acquire()` fails fatally (programmer
error) if called when unavailable, otherwise increments n. -/
def Lock.acquire (l : Lock) : Option Lock :=
  if l.held < l.cap then some { l with held := l.held + 1 } else none

/-- Modelled from the spec: `release()` decrements n, failing fatally
if n would go negative. -/
def Lock.release (l : Lock) : Option Lock :=
  if l.held = 0 then none else some { l with held := l.held - 1 }

/-- Modelled from the spec: a task of the lock-aware scheduler of §4.2,
with its set of declared lock names. -/
structure LTask where
  title : String
  requires : List String
  provides : List String
  locks : List String

/-- Modelled from the spec: node states of the lock-aware scheduler,
including the `failed` state of §3. -/
inductive LNState where
  | pending
  | running
  | finished
  | skipped
  | failed
deriving DecidableEq

/-- Modelled from the spec: a node of the lock-aware scheduler. -/
structure LNode where
  task : LTask
  state : LNState

/-- Modelled from the spec: terminal outcomes of a running node. -/
inductive LOutcome where
  | finished
  | skipped
  | failed
deriving DecidableEq

/-- The node state a terminal outcome produces. -/
def outState : LOutcome → LNState
  | LOutcome.finished => LNState.finished
  | LOutcome.skipped => LNState.skipped
  | LOutcome.failed => LNState.failed

/-- Modelled from the spec: the scheduler state of §4.2 — node list,
context key set, per-lock held count (lock capacities are a fixed
table), and the first-error flag. -/
structure LState where
  nodes : List LNode
  ctxKeys : List String
  held : String → Nat
  errored : Bool

/-- Acquisition of every lock in a task's lock set (set semantics: each
named lock's count rises by one). -/
def acqLocks (locks : List String) (held : String → Nat) : String → Nat :=
  fun nm => if nm ∈ locks then held nm + 1 else held nm

/-- Release of every lock in a task's lock set, in all outcomes
including failure (§4.3). -/
def relLocks (locks : List String) (held : String → Nat) : String → Nat :=
  fun nm => if nm ∈ locks then held nm - 1 else held nm

/-- The number of running nodes declaring lock `nm`. -/
def runHolders (s : LState) (nm : String) : Nat :=
  s.nodes.countP
    (fun n => decide (n.state = LNState.running) && decide (nm ∈ n.task.locks))

/-- Modelled from the spec: the transitions of the lock-aware scheduler.
`startNode` is §4.2's readiness predicate plus §4.3's synchronous lock
acquisition; `complete` covers a running node reaching any terminal
outcome, merging its provides (unless it failed), recording a first
error, and releasing its locks. -/
inductive LStep (cap : String → Nat) : LState → LState → Prop where
  | startNode (s : LState) (i : Nat) (n : LNode)
      (hget : s.nodes[i]? = some n) (hp : n.state = LNState.pending)
      (herr : s.errored = false)
      (hreq : ∀ k ∈ n.task.requires, k ∈ s.ctxKeys)
      (hlock : ∀ nm ∈ n.task.locks, s.held nm < cap nm) :
      LStep cap s ⟨s.nodes.set i ⟨n.task, LNState.running⟩, s.ctxKeys,
        acqLocks n.task.locks s.held, s.errored⟩
  | complete (s : LState) (i : Nat) (n : LNode) (o : LOutcome)
      (hget : s.nodes[i]? = some n) (hr : n.state = LNState.running) :
      LStep cap s ⟨s.nodes.set i ⟨n.task, outState o⟩,
        s.ctxKeys ++ (if o = LOutcome.failed then [] else n.task.provides),
        relLocks n.task.locks s.held,
        s.errored || decide (o = LOutcome.failed)⟩

/-- Modelled from the spec: the initial state of a lock-aware run — all
nodes pending, no lock held, no error. -/
def LInit (tasks : List LTask) (ctx0 : List String) : LState :=
  ⟨tasks.map (fun t => ⟨t, LNState.pending⟩), ctx0, fun _ => 0, false⟩

/-- Reachable states of a lock-aware run. -/
inductive LReach (cap : String → Nat) (tasks : List LTask) (ctx0 : List String) :
    LState → Prop where
  | init : LReach cap tasks ctx0 (LInit tasks ctx0)
  | step {s s2 : LState} : LReach cap tasks ctx0 s → LStep cap s s2 →
      LReach cap tasks ctx0 s2

/-- A task declaring lock `qbit`, used as concrete lock-run input. -/
def lkTask : LTask := ⟨"LA", [], [], ["qbit"]⟩

/-- The lock-run state after admitting `lkTask`. -/
def lkS1 : LState :=
  ⟨(LInit [lkTask] []).nodes.set 0 ⟨lkTask, LNState.running⟩, [],
    acqLocks ["qbit"] (fun _ => 0), false⟩

/-- Modelled from the spec: the union of all `requires` key sets, the
universe inside which the requirement closure grows. -/
def allRequires (tasks : List Task) : Finset String :=
  tasks.foldr (fun t acc => t.requires.toFinset ∪ acc) ∅

/-- Modelled from the spec: one step of the reverse-reachability
computation of §4.2's targeting — add the `requires` of every task
providing a key already in the set. -/
def closStep (tasks : List Task) (ks : Finset String) : Finset String :=
  ks ∪ tasks.foldr
    (fun t acc =>
      if t.provides.any (fun p => decide (p ∈ ks)) then t.requires.toFinset ∪ acc
      else acc) ∅

/-- Iteration of `closStep`. -/
def closIter (tasks : List Task) : Nat → Finset String → Finset String
  | 0, ks => ks
  | fuel + 1, ks => closIter tasks fuel (closStep tasks ks)

/-- Modelled from the spec: the requirement closure of the targets —
`closStep` iterated to its fixed point (enough fuel to exhaust the
requires universe). -/
def reqClosure (tasks : List Task) (targets : Finset String) : Finset String :=
  closIter tasks ((allRequires tasks).card + 1) targets

/-- Modelled from the spec: target pruning — keep exactly the tasks
providing a key of the requirement closure, discarding all others
before the run begins. -/
def targetPrune (tasks : List Task) (targets : Finset String) : List Task :=
  tasks.filter (fun t => t.provides.any (fun p => decide (p ∈ reqClosure tasks targets)))

/-- The five-task reference graph D1..D5 of the repository's tests. -/
def dT1 : Task := ⟨"D1", [], ["1"], Body.ret none⟩

/-- D2 of the reference graph. -/
def dT2 : Task := ⟨"D2", ["1"], ["2", "3"], Body.ret none⟩

/-- D3 of the reference graph. -/
def dT3 : Task := ⟨"D3", ["1"], ["4", "5"], Body.ret none⟩

/-- D4 of the reference graph. -/
def dT4 : Task := ⟨"D4", ["3", "4"], ["6"], Body.ret none⟩

/-- D5 of the reference graph. -/
def dT5 : Task := ⟨"D5", ["4", "6"], ["7"], Body.ret none⟩

/-- The reference graph as a task list. -/
def dTasks : List Task := [dT1, dT2, dT3, dT4, dT5]

/-! Helper lemmas about the result-contract check. -/

theorem checkKeys_eq_none_iff (ctx : Obj) (t : Task) (ks : List String) :
    checkKeys ctx t ks = none ↔ ∀ k ∈ ks, k ∉ keys ctx ∧ k ∈ t.provides := by
  induction ks with
  | nil => simp [checkKeys]
  | cons k rest ih =>
    by_cases h1 : k ∈ keys ctx
    · simp [checkKeys, h1]
    · by_cases h2 : k ∈ t.provides
      · simp [checkKeys, h1, h2, ih]
      · simp [checkKeys, h1, h2]

theorem checkProvides_eq_none_iff (t : Task) (rk ps : List String) :
    checkProvides t rk ps = none ↔ ∀ p ∈ ps, p ∈ rk := by
  induction ps with
  | nil => simp [checkProvides]
  | cons p rest ih =>
    by_cases h : p ∈ rk
    · simp [checkProvides, h, ih]
    · simp [checkProvides, h]

theorem checkProvides_eq_some (t : Task) (rk ps : List String) (e : String) :
    checkProvides t rk ps = some e →
      ∃ p ∈ ps, p ∉ rk ∧ e = "Task " ++ t.title ++ " did not provide expected " ++ p := by
  induction ps with
  | nil => simp [checkProvides]
  | cons p rest ih =>
    by_cases h : p ∈ rk
    · intro hcp
      rcases ih (by simpa [checkProvides, h] using hcp) with ⟨q, hq, hqk, hqe⟩
      exact ⟨q, List.mem_cons_of_mem _ hq, hqk, hqe⟩
    · intro hcp
      refine ⟨p, List.mem_cons_self _ _, h, ?_⟩
      have he := hcp
      simp [checkProvides, h] at he
      exact he.symm

theorem checkResult_eq_none_iff (ctx : Obj) (t : Task) (result : Obj) :
    checkResult ctx t result = none ↔
      (∀ k ∈ keys result, k ∉ keys ctx ∧ k ∈ t.provides) ∧
      (∀ p ∈ t.provides, p ∈ keys result) := by
  unfold checkResult
  cases hck : checkKeys ctx t (keys result) with
  | some e =>
    simp only [reduceCtorEq, false_iff]
    intro ⟨h1, _⟩
    rw [(checkKeys_eq_none_iff ctx t (keys result)).mpr h1] at hck
    exact Option.noConfusion hck
  | none =>
    rw [checkProvides_eq_none_iff]
    have h1 := (checkKeys_eq_none_iff ctx t (keys result)).mp hck
    exact ⟨fun h2 => ⟨h1, h2⟩, fun h => h.2⟩

theorem resolveCheck_context (s : GState) : (resolveCheck s).context = s.context := by
  unfold resolveCheck
  split <;> rfl

theorem refresh_context (s : GState) : (refresh s).context = s.context := by
  unfold refresh
  rw [resolveCheck_context]

theorem setNode_context (s : GState) (i : Nat) (n : Node) :
    (setNode s i n).context = s.context := rfl

theorem setNode_settled (s : GState) (i : Nat) (n : Node) :
    (setNode s i n).settled = s.settled := rfl

theorem settleReject_settled_of_none (s : GState) (m : String) (h : s.settled = none) :
    (settleReject s m).settled = some (some m) := by
  simp [settleReject, h]

theorem resolveCheck_nodes (s : GState) : (resolveCheck s).nodes = s.nodes := by
  unfold resolveCheck
  split <;> rfl

theorem refresh_nodes (s : GState) :
    (refresh s).nodes = admitAll s.context s.nodes := by
  unfold refresh
  rw [resolveCheck_nodes]

theorem admitAll_getElem? (ctx : Obj) (ns : List Node) (i : Nat) :
    (admitAll ctx ns)[i]? = Option.map (admitOne ctx) ns[i]? := by
  unfold admitAll
  rw [List.getElem?_map]

theorem ready_false_of_not_pending (ctx : Obj) (n : Node)
    (h : n.state ≠ NState.pending) : ready ctx n = false := by
  simp [ready, h]

theorem ready_pending (ctx : Obj) (n : Node) (h : ready ctx n = true) :
    n.state = NState.pending := by
  simp [ready] at h
  exact h.1

theorem ready_requires (ctx : Obj) (n : Node) (h : ready ctx n = true) :
    ∀ k ∈ n.task.requires, k ∈ keys ctx := by
  simp [ready, List.all_eq_true] at h
  exact h.2

theorem admitOne_task (ctx : Obj) (n : Node) : (admitOne ctx n).task = n.task := by
  unfold admitOne
  split <;> rfl

theorem admitOne_done (ctx : Obj) (n : Node) : (admitOne ctx n).done = n.done := by
  unfold admitOne
  split <;> rfl

theorem admitOne_of_not_pending (ctx : Obj) (n : Node)
    (h : n.state ≠ NState.pending) : admitOne ctx n = n := by
  unfold admitOne
  rw [ready_false_of_not_pending ctx n h]
  rfl

theorem admitOne_term (ctx : Obj) (n : Node) :
    termNode (admitOne ctx n) ↔ termNode n := by
  unfold admitOne
  split
  · rename_i hrdy
    have hp := ready_pending ctx n hrdy
    simp [termNode, hp]
  · exact Iff.rfl

theorem admitOne_pending (ctx : Obj) (n : Node) :
    (admitOne ctx n).state = NState.pending ↔
      n.state = NState.pending ∧ ready ctx n = false := by
  unfold admitOne
  split
  · rename_i hrdy
    constructor
    · intro h
      exact NState.noConfusion h
    · rintro ⟨-, hf⟩
      rw [hrdy] at hf
      exact Bool.noConfusion hf
  · rename_i hrdy
    constructor
    · intro h
      exact ⟨h, Bool.eq_false_iff.mpr hrdy⟩
    · exact fun h => h.1

theorem isTerminal_iff (n : Node) : isTerminal n = true ↔ termNode n := by
  simp [isTerminal, termNode]

theorem all_terminal_iff (ns : List Node) :
    ns.all isTerminal = true ↔
      ∀ (i : Nat) (n : Node), ns[i]? = some n → termNode n := by
  rw [List.all_eq_true]
  constructor
  · intro h i n hget
    rcases List.getElem?_eq_some.mp hget with ⟨hi, hEq⟩
    exact (isTerminal_iff n).mp (h n (hEq ▸ List.getElem_mem hi))
  · intro h n hm
    rcases List.mem_iff_getElem?.mp hm with ⟨i, hget⟩
    exact (isTerminal_iff n).mpr (h i n hget)

theorem refresh_settled (s : GState) :
    (refresh s).settled =
      if s.settled = none ∧ (admitAll s.context s.nodes).all isTerminal = true
      then some none else s.settled := by
  unfold refresh resolveCheck
  dsimp only
  split <;> rfl

theorem keys_append (a b : Obj) : keys (a ++ b) = keys a ++ keys b := by
  unfold keys
  exact List.map_append Prod.fst a b

theorem ready_false_pending (ctx : Obj) (n : Node) (hp : n.state = NState.pending)
    (h : ready ctx n = false) : ∃ k ∈ n.task.requires, k ∉ keys ctx := by
  simp only [ready, hp, decide_True, Bool.true_and, List.all_eq_false,
    decide_eq_true_eq] at h
  exact h

theorem refresh_noReady (s : GState) :
    ∀ (i : Nat) (n : Node), (refresh s).nodes[i]? = some n →
      n.state = NState.pending →
      ∃ k ∈ n.task.requires, k ∉ keys (refresh s).context := by
  intro i n hget hp
  rw [refresh_context]
  rw [refresh_nodes, admitAll_getElem?] at hget
  cases hm : s.nodes[i]? with
  | none =>
    rw [hm] at hget
    exact Option.noConfusion hget
  | some m =>
    rw [hm, Option.map_some'] at hget
    have heq : admitOne s.context m = n := Option.some.inj hget
    have hmp := (admitOne_pending s.context m).mp (by rw [heq]; exact hp)
    have htask : n.task = m.task := by rw [← heq, admitOne_task]
    rw [htask]
    exact ready_false_pending s.context m hmp.1 hmp.2

theorem taskAt (ctx0 : Obj) (tasks : List Task) (s : GState)
    (hInv : Inv ctx0 tasks s) (i : Nat) (n : Node) (hget : s.nodes[i]? = some n) :
    tasks[i]? = some n.task := by
  have h := hInv.taskEq i
  rw [hget, Option.map_some'] at h
  exact h.symm

theorem provides_disjoint (ctx0 : Obj) (tasks : List Task)
    (hwf : WellFormed ctx0 tasks) (i j : Nat) (ti tj : Task)
    (hi : tasks[i]? = some ti) (hj : tasks[j]? = some tj) (hne : i ≠ j) :
    ∀ k ∈ ti.provides, k ∉ tj.provides := by
  rcases List.getElem?_eq_some.mp hi with ⟨hilt, hieq⟩
  rcases List.getElem?_eq_some.mp hj with ⟨hjlt, hjeq⟩
  rcases Nat.lt_or_ge i j with hlt | hge
  · have hp := (List.pairwise_iff_getElem.mp hwf.2.1) i j hilt hjlt hlt
    rw [hieq, hjeq] at hp
    exact hp
  · have hjl : j < i := Nat.lt_of_le_of_ne hge (fun h => hne h.symm)
    have hp := (List.pairwise_iff_getElem.mp hwf.2.1) j i hjlt hilt hjl
    rw [hieq, hjeq] at hp
    exact fun k hk hk2 => hp k hk2 hk

theorem not_term_of_running (n : Node) (hrun : n.state = NState.running) :
    ¬termNode n := by
  rintro (h | h) <;> (rw [hrun] at h; exact NState.noConfusion h)

theorem result_fresh (ctx0 : Obj) (tasks : List Task) (hwf : WellFormed ctx0 tasks)
    (s : GState) (hInv : Inv ctx0 tasks s) (i : Nat) (n : Node)
    (hget : s.nodes[i]? = some n) (hrun : n.state = NState.running) :
    ∀ k ∈ n.task.provides, k ∉ keys s.context := by
  intro k hk hkc
  rcases (hInv.ctxChar k).mp hkc with hk0 | ⟨j, m, hgetj, hterm, hkm⟩
  · have hti := taskAt ctx0 tasks s hInv i n hget
    rcases List.getElem?_eq_some.mp hti with ⟨hlt, heq⟩
    exact hwf.2.2 n.task (heq ▸ List.getElem_mem hlt) k hk hk0
  · have hne : i ≠ j := by
      rintro rfl
      rw [hget] at hgetj
      cases Option.some.inj hgetj
      exact not_term_of_running n hrun hterm
    exact provides_disjoint ctx0 tasks hwf i j n.task m.task
      (taskAt ctx0 tasks s hInv i n hget) (taskAt ctx0 tasks s hInv j m hgetj)
      hne k hk hkm

theorem checkResult_passes (ctx0 : Obj) (tasks : List Task)
    (hwf : WellFormed ctx0 tasks) (s : GState) (hInv : Inv ctx0 tasks s)
    (i : Nat) (n : Node) (hget : s.nodes[i]? = some n)
    (hrun : n.state = NState.running) (result : Obj)
    (hkeys : keys result = n.task.provides) :
    checkResult s.context n.task result = none :=
  (checkResult_eq_none_iff _ _ _).mpr
    ⟨fun k hk =>
      ⟨result_fresh ctx0 tasks hwf s hInv i n hget hrun k (by rw [← hkeys]; exact hk),
       by rw [← hkeys]; exact hk⟩,
     fun p hp => by rw [hkeys]; exact hp⟩

theorem inv_merge_refresh (ctx0 : Obj) (tasks : List Task) (_hwf : WellFormed ctx0 tasks)
    (s : GState) (hInv : Inv ctx0 tasks s) (i : Nat) (n : Node)
    (hget : s.nodes[i]? = some n) (hrun : n.state = NState.running)
    (result : Obj) (hkeys : keys result = n.task.provides)
    (st2 : NState) (hst2 : st2 = NState.finished ∨ st2 = NState.skipped)
    (hsettled : s.settled = none) (sm : GState)
    (hsmNodes : sm.nodes = s.nodes.set i ⟨n.task, st2, true⟩)
    (hsmCtx : sm.context = s.context ++ result)
    (hsmSettled : sm.settled = s.settled) :
    Inv ctx0 tasks (refresh sm) := by
  have hlen : i < s.nodes.length := (List.getElem?_eq_some.mp hget).1
  have hnnpend : (⟨n.task, st2, true⟩ : Node).state ≠ NState.pending := by
    show st2 ≠ NState.pending
    rcases hst2 with rfl | rfl <;> (intro hc; exact NState.noConfusion hc)
  have hterm2 : termNode (⟨n.task, st2, true⟩ : Node) := by
    show st2 = NState.finished ∨ st2 = NState.skipped
    exact hst2
  have hgetnn : sm.nodes[i]? = some ⟨n.task, st2, true⟩ := by
    rw [hsmNodes]
    exact List.getElem?_set_self (by simpa using hlen)
  have hgetne : ∀ j : Nat, j ≠ i → sm.nodes[j]? = s.nodes[j]? := by
    intro j hj
    rw [hsmNodes, List.getElem?_set_ne (fun h => hj h.symm)]
  have hRnodes : ∀ j : Nat,
      (refresh sm).nodes[j]? = Option.map (admitOne sm.context) (sm.nodes[j]?) := by
    intro j
    rw [refresh_nodes, admitAll_getElem?]
  have hRi : (refresh sm).nodes[i]? = some ⟨n.task, st2, true⟩ := by
    rw [hRnodes i, hgetnn, Option.map_some', admitOne_of_not_pending _ _ hnnpend]
  have hRj : ∀ j : Nat, j ≠ i →
      (refresh sm).nodes[j]? = Option.map (admitOne sm.context) (s.nodes[j]?) := by
    intro j hj
    rw [hRnodes j, hgetne j hj]
  have hRctx : (refresh sm).context = s.context ++ result := by
    rw [refresh_context, hsmCtx]
  refine ⟨?_, ?_, ?_, ?_, ?_, ?_, ?_, ?_⟩
  · rw [refresh_nodes]
    unfold admitAll
    rw [List.length_map, hsmNodes, List.length_set]
    exact hInv.lenEq
  · intro j
    by_cases hj : j = i
    · subst hj
      rw [hRi, Option.map_some']
      exact (taskAt ctx0 tasks s hInv j n hget).symm
    · rw [hRj j hj]
      cases hmj : s.nodes[j]? with
      | none =>
        have h := hInv.taskEq j
        rw [hmj] at h
        simpa using h
      | some m =>
        have h := hInv.taskEq j
        rw [hmj, Option.map_some'] at h
        rw [Option.map_some', Option.map_some', admitOne_task]
        exact h
  · intro e
    rw [refresh_settled]
    split
    · intro h
      exact Option.noConfusion (Option.some.inj h)
    · rw [hsmSettled, hsettled]
      exact fun h => Option.noConfusion h
  · intro j m hgetm htermm k hk
    rw [hRctx, keys_append]
    refine List.mem_append.mpr ?_
    by_cases hj : j = i
    · subst hj
      rw [hRi] at hgetm
      cases Option.some.inj hgetm
      right
      rw [hkeys]
      exact hk
    · rw [hRj j hj] at hgetm
      cases hmj : s.nodes[j]? with
      | none =>
        rw [hmj] at hgetm
        exact Option.noConfusion hgetm
      | some m0 =>
        rw [hmj, Option.map_some'] at hgetm
        cases Option.some.inj hgetm
        left
        refine hInv.termProv j m0 hmj ((admitOne_term _ _).mp htermm) k ?_
        rw [← admitOne_task sm.context m0]
        exact hk
  · intro k
    rw [hRctx, keys_append]
    constructor
    · intro hkmem
      rcases List.mem_append.mp hkmem with hkc | hkr
      · rcases (hInv.ctxChar k).mp hkc with h0 | ⟨j, m0, hgetj, hterm0, hk0⟩
        · exact Or.inl h0
        · right
          have hji : j ≠ i := by
            rintro rfl
            rw [hget] at hgetj
            cases Option.some.inj hgetj
            exact not_term_of_running _ hrun hterm0
          refine ⟨j, admitOne sm.context m0, ?_, (admitOne_term _ _).mpr hterm0, ?_⟩
          · rw [hRj j hji, hgetj, Option.map_some']
          · rw [admitOne_task]
            exact hk0
      · right
        refine ⟨i, ⟨n.task, st2, true⟩, hRi, hterm2, ?_⟩
        show k ∈ n.task.provides
        rw [← hkeys]
        exact hkr
    · rintro (h0 | ⟨j, m, hgetm, htermm, hkm⟩)
      · exact List.mem_append.mpr (Or.inl ((hInv.ctxChar k).mpr (Or.inl h0)))
      · refine List.mem_append.mpr ?_
        by_cases hj : j = i
        · subst hj
          rw [hRi] at hgetm
          cases Option.some.inj hgetm
          right
          rw [hkeys]
          exact hkm
        · rw [hRj j hj] at hgetm
          cases hmj : s.nodes[j]? with
          | none =>
            rw [hmj] at hgetm
            exact Option.noConfusion hgetm
          | some m0 =>
            rw [hmj, Option.map_some'] at hgetm
            cases Option.some.inj hgetm
            left
            refine (hInv.ctxChar k).mpr (Or.inr ⟨j, m0, hmj, (admitOne_term _ _).mp htermm, ?_⟩)
            rw [← admitOne_task sm.context m0]
            exact hkm
  · exact refresh_noReady sm
  · intro j m hgetm
    by_cases hj : j = i
    · subst hj
      rw [hRi] at hgetm
      cases Option.some.inj hgetm
      exact ⟨fun _ => hterm2, fun _ => rfl⟩
    · rw [hRj j hj] at hgetm
      cases hmj : s.nodes[j]? with
      | none =>
        rw [hmj] at hgetm
        exact Option.noConfusion hgetm
      | some m0 =>
        rw [hmj, Option.map_some'] at hgetm
        cases Option.some.inj hgetm
        rw [admitOne_done, admitOne_term]
        exact hInv.doneIff j m0 hmj
  · rw [refresh_settled, refresh_nodes]
    split
    · rename_i hcond
      exact iff_of_true rfl ((all_terminal_iff _).mp hcond.2)
    · rename_i hcond
      refine iff_of_false ?_ ?_
      · rw [hsmSettled, hsettled]
        exact fun h => Option.noConfusion h
      · intro hall
        exact hcond ⟨by rw [hsmSettled, hsettled], (all_terminal_iff _).mpr hall⟩

theorem inv_complete (ctx0 : Obj) (tasks : List Task) (hwf : WellFormed ctx0 tasks)
    (s : GState) (hInv : Inv ctx0 tasks s) (i : Nat) (hc : CanComplete s i) :
    Inv ctx0 tasks (complete s i) := by
  obtain ⟨n, hget, hrun, hdone⟩ := hc
  have hsettled : s.settled = none := by
    cases hs : s.settled with
    | none => rfl
    | some o =>
      cases o with
      | none => exact absurd (hInv.resolvedIff.mp hs i n hget) (not_term_of_running n hrun)
      | some e => exact absurd hs (hInv.noReject e)
  have hti : tasks[i]? = some n.task := taskAt ctx0 tasks s hInv i n hget
  have hmem : n.task ∈ tasks := by
    rcases List.getElem?_eq_some.mp hti with ⟨hlt, heq⟩
    exact heq ▸ List.getElem_mem hlt
  have hbody : BodyOK n.task := hwf.1 n.task hmem
  unfold complete
  rw [hget]
  dsimp only
  rw [if_pos ⟨hrun, hdone⟩]
  cases hb : n.task.body with
  | err m =>
    exfalso
    simp only [BodyOK, hb] at hbody
  | ret r =>
    have hsf : ∃ result, synthFalsy n.task r = Except.ok result ∧
        keys result = n.task.provides := by
      cases r with
      | some m =>
        refine ⟨m, rfl, ?_⟩
        simpa only [BodyOK, hb] using hbody
      | none =>
        have hlen1 : n.task.provides.length ≤ 1 := by
          simpa only [BodyOK, hb] using hbody
        match hp : n.task.provides with
        | [] => exact ⟨[], by simp [synthFalsy, hp], by simp [keys, hp]⟩
        | [k] =>
          exact ⟨[(k, Value.vbool true)], by simp [synthFalsy, hp], by simp [keys, hp]⟩
        | a :: b :: rest =>
          rw [hp] at hlen1
          simp at hlen1
    obtain ⟨result, hok, hkeys⟩ := hsf
    dsimp only
    rw [hok]
    dsimp only
    have hcheck := checkResult_passes ctx0 tasks hwf s hInv i n hget hrun result hkeys
    unfold applyResult
    rw [hcheck]
    dsimp only
    rw [if_neg (by rw [hrun]; intro hc2; exact NState.noConfusion hc2)]
    exact inv_merge_refresh ctx0 tasks hwf s hInv i n hget hrun result hkeys
      NState.finished (Or.inl rfl) hsettled _ rfl rfl rfl
  | skipRet arg =>
    have hkeys : keys arg = n.task.provides := by
      simpa only [BodyOK, hb] using hbody
    dsimp only
    have hcheck := checkResult_passes ctx0 tasks hwf s hInv i n hget hrun arg hkeys
    unfold applyResult
    rw [show checkResult
        ({ s with nodes := s.nodes.set i { n with state := NState.skipped },
                  log := s.log ++ [Update.state n.task.title "skipped"] } : GState).context
        ({ n with state := NState.skipped } : Node).task arg = none from hcheck]
    dsimp only
    rw [if_pos rfl]
    exact inv_merge_refresh ctx0 tasks hwf s hInv i n hget hrun arg hkeys
      NState.skipped (Or.inr rfl) hsettled _
      (by
        show (s.nodes.set i { n with state := NState.skipped }).set i _ = _
        exact List.set_set _ _ _ _)
      rfl rfl

theorem inv_init (ctx0 : Obj) (tasks : List Task) :
    Inv ctx0 tasks (initState tasks ctx0) := by
  have hnodes : ∀ j : Nat, (initState tasks ctx0).nodes[j]? =
      Option.map (fun t => admitOne ctx0 (initNode t)) tasks[j]? := by
    intro j
    unfold initState
    rw [refresh_nodes]
    dsimp only
    rw [admitAll_getElem?, List.getElem?_map, Option.map_map]
    rfl
  have hctx : (initState tasks ctx0).context = ctx0 := by
    unfold initState
    rw [refresh_context]
  have hnotterm : ∀ (j : Nat) (m : Node),
      (initState tasks ctx0).nodes[j]? = some m → ¬termNode m := by
    intro j m hget hterm
    rw [hnodes j] at hget
    cases ht : tasks[j]? with
    | none =>
      rw [ht] at hget
      exact Option.noConfusion hget
    | some t =>
      rw [ht, Option.map_some'] at hget
      cases Option.some.inj hget
      rcases (admitOne_term _ _).mp hterm with h | h <;> exact NState.noConfusion h
  refine ⟨?_, ?_, ?_, ?_, ?_, ?_, ?_, ?_⟩
  · unfold initState
    rw [refresh_nodes]
    simp [admitAll]
  · intro j
    rw [hnodes j]
    cases ht : tasks[j]? with
    | none => simp
    | some t =>
      rw [Option.map_some', Option.map_some', admitOne_task]
      rfl
  · intro e
    unfold initState
    rw [refresh_settled]
    split
    · intro h
      exact Option.noConfusion (Option.some.inj h)
    · intro h
      exact Option.noConfusion h
  · intro j m hget hterm
    exact absurd hterm (hnotterm j m hget)
  · intro k
    rw [hctx]
    constructor
    · exact fun h => Or.inl h
    · rintro (h | ⟨j, m, hget, hterm, -⟩)
      · exact h
      · exact absurd hterm (hnotterm j m hget)
  · exact fun j m hget hp => refresh_noReady _ j m hget hp
  · intro j m hget
    constructor
    · intro hd
      exfalso
      rw [hnodes j] at hget
      cases ht : tasks[j]? with
      | none =>
        rw [ht] at hget
        exact Option.noConfusion hget
      | some t =>
        rw [ht, Option.map_some'] at hget
        cases Option.some.inj hget
        rw [admitOne_done] at hd
        exact Bool.noConfusion hd
    · intro hterm
      exact absurd hterm (hnotterm j m hget)
  · unfold initState
    rw [refresh_settled, refresh_nodes]
    split
    · rename_i hcond
      exact iff_of_true rfl ((all_terminal_iff _).mp hcond.2)
    · rename_i hcond
      refine iff_of_false (fun h => Option.noConfusion h) ?_
      intro hall
      exact hcond ⟨rfl, (all_terminal_iff _).mpr hall⟩

theorem inv_reachable (ctx0 : Obj) (tasks : List Task) (hwf : WellFormed ctx0 tasks)
    (s : GState) (hr : Reachable tasks ctx0 s) : Inv ctx0 tasks s := by
  induction hr with
  | init => exact inv_init ctx0 tasks
  | step hprev hcan ih => exact inv_complete ctx0 tasks hwf _ ih _ hcan

theorem progress (ctx0 : Obj) (tasks : List Task) (_hwf : WellFormed ctx0 tasks)
    (htopo : Topo ctx0 tasks) (s : GState) (hInv : Inv ctx0 tasks s)
    (hns : s.settled = none) : ∃ i : Nat, CanComplete s i := by
  by_contra hnc
  push_neg at hnc
  have hnorun : ∀ (j : Nat) (m : Node), s.nodes[j]? = some m →
      m.state = NState.running → False := by
    intro j m hget hrunm
    have hd : m.done = false := by
      cases hdm : m.done
      · rfl
      · exact absurd ((hInv.doneIff j m hget).mp hdm) (not_term_of_running m hrunm)
    exact hnc j ⟨m, hget, hrunm, hd⟩
  have hpend : ∀ (j : Nat) (m : Node), s.nodes[j]? = some m → ¬termNode m →
      m.state = NState.pending := by
    intro j m hget hnterm
    cases hst : m.state with
    | pending => rfl
    | running => exact (hnorun j m hget hst).elim
    | skipped => exact absurd (Or.inr hst) hnterm
    | finished => exact absurd (Or.inl hst) hnterm
  have hall : ∀ (j : Nat) (m : Node), s.nodes[j]? = some m → termNode m := by
    by_contra hnall
    push_neg at hnall
    obtain ⟨j0, m0, hget0, hnterm0⟩ := hnall
    obtain ⟨rank, hrank⟩ := htopo
    set P : Finset Nat := (Finset.range s.nodes.length).filter
      (fun j => (s.nodes[j]?).map Node.state = some NState.pending) with hP
    have hj0P : j0 ∈ P := by
      rw [hP]
      refine Finset.mem_filter.mpr
        ⟨Finset.mem_range.mpr (List.getElem?_eq_some.mp hget0).1, ?_⟩
      rw [hget0, Option.map_some', hpend j0 m0 hget0 hnterm0]
    obtain ⟨imin, hminP, hminLe⟩ := Finset.exists_min_image P rank ⟨j0, hj0P⟩
    rcases Finset.mem_filter.mp hminP with ⟨hrange, hpending⟩
    cases hgmin : s.nodes[imin]? with
    | none =>
      rw [hgmin] at hpending
      exact Option.noConfusion hpending
    | some nmin =>
      rw [hgmin, Option.map_some'] at hpending
      have hpmin : nmin.state = NState.pending := Option.some.inj hpending
      obtain ⟨k, hkreq, hknot⟩ := hInv.noReady imin nmin hgmin hpmin
      have htimin : tasks[imin]? = some nmin.task :=
        taskAt ctx0 tasks s hInv imin nmin hgmin
      rcases hrank imin nmin.task htimin k hkreq with hk0 | ⟨j, tj, htj, hrankj, hkprov⟩
      · exact hknot ((hInv.ctxChar k).mpr (Or.inl hk0))
      · have hjlen : j < s.nodes.length := by
          rw [hInv.lenEq]
          exact (List.getElem?_eq_some.mp htj).1
        cases hgj : s.nodes[j]? with
        | none =>
          rw [List.getElem?_eq_none_iff] at hgj
          omega
        | some mj =>
          have hmjtask : mj.task = tj := by
            have h := hInv.taskEq j
            rw [hgj, Option.map_some', htj] at h
            exact Option.some.inj h
          by_cases hterm : termNode mj
          · exact hknot
              (hInv.termProv j mj hgj hterm k (by rw [hmjtask]; exact hkprov))
          · have hpj : mj.state = NState.pending := hpend j mj hgj hterm
            have hjP : j ∈ P := by
              rw [hP]
              exact Finset.mem_filter.mpr ⟨Finset.mem_range.mpr hjlen,
                by rw [hgj, Option.map_some', hpj]⟩
            exact absurd hrankj (Nat.not_lt.mpr (hminLe j hjP))
  have hres := hInv.resolvedIff.mpr hall
  rw [hns] at hres
  exact Option.noConfusion hres

theorem sum_wt_set_lt (l : List Node) (i : Nat) (n nn : Node)
    (h : l[i]? = some n) (hlt : wt nn < wt n) :
    ((l.set i nn).map wt).sum < (l.map wt).sum := by
  induction l generalizing i with
  | nil => exact Option.noConfusion ((List.getElem?_nil (n := i)) ▸ h)
  | cons x xs ih =>
    cases i with
    | zero =>
      have hx : x = n := Option.some.inj (by simpa using h)
      simp only [List.set_cons_zero, List.map_cons, List.sum_cons]
      rw [hx]
      omega
    | succ i2 =>
      simp only [List.set_cons_succ, List.map_cons, List.sum_cons]
      have := ih i2 (by simpa using h)
      omega

theorem workLeft_refresh_le (s : GState) : workLeft (refresh s) ≤ workLeft s := by
  unfold workLeft
  rw [refresh_nodes]
  unfold admitAll
  rw [List.map_map]
  refine List.sum_le_sum ?_
  intro m _
  show wt (admitOne s.context m) ≤ wt m
  unfold admitOne
  split
  · rename_i hrdy
    have hp := ready_pending _ _ hrdy
    simp [wt, hp]
  · exact le_refl _

theorem workLeft_complete_lt (ctx0 : Obj) (tasks : List Task)
    (hwf : WellFormed ctx0 tasks) (s : GState) (hInv : Inv ctx0 tasks s)
    (i : Nat) (hc : CanComplete s i) : workLeft (complete s i) < workLeft s := by
  obtain ⟨n, hget, hrun, hdone⟩ := hc
  have hti : tasks[i]? = some n.task := taskAt ctx0 tasks s hInv i n hget
  have hmem : n.task ∈ tasks := by
    rcases List.getElem?_eq_some.mp hti with ⟨hlt, heq⟩
    exact heq ▸ List.getElem_mem hlt
  have hbody : BodyOK n.task := hwf.1 n.task hmem
  unfold complete
  rw [hget]
  dsimp only
  rw [if_pos ⟨hrun, hdone⟩]
  cases hb : n.task.body with
  | err m =>
    exfalso
    simp only [BodyOK, hb] at hbody
  | ret r =>
    have hsf : ∃ result, synthFalsy n.task r = Except.ok result ∧
        keys result = n.task.provides := by
      cases r with
      | some m =>
        refine ⟨m, rfl, ?_⟩
        simpa only [BodyOK, hb] using hbody
      | none =>
        have hlen1 : n.task.provides.length ≤ 1 := by
          simpa only [BodyOK, hb] using hbody
        match hp : n.task.provides with
        | [] => exact ⟨[], by simp [synthFalsy, hp], by simp [keys, hp]⟩
        | [k] =>
          exact ⟨[(k, Value.vbool true)], by simp [synthFalsy, hp], by simp [keys, hp]⟩
        | a :: b :: rest =>
          rw [hp] at hlen1
          simp at hlen1
    obtain ⟨result, hok, hkeys⟩ := hsf
    dsimp only
    rw [hok]
    dsimp only
    have hcheck := checkResult_passes ctx0 tasks hwf s hInv i n hget hrun result hkeys
    unfold applyResult
    rw [hcheck]
    dsimp only
    rw [if_neg (by rw [hrun]; intro hc2; exact NState.noConfusion hc2)]
    refine lt_of_le_of_lt (workLeft_refresh_le _) ?_
    show ((s.nodes.set i ⟨n.task, NState.finished, true⟩).map wt).sum < (s.nodes.map wt).sum
    exact sum_wt_set_lt s.nodes i n _ hget (by simp [wt, hrun])
  | skipRet arg =>
    have hkeys : keys arg = n.task.provides := by
      simpa only [BodyOK, hb] using hbody
    dsimp only
    have hcheck := checkResult_passes ctx0 tasks hwf s hInv i n hget hrun arg hkeys
    unfold applyResult
    rw [show checkResult
        ({ s with nodes := s.nodes.set i { n with state := NState.skipped },
                  log := s.log ++ [Update.state n.task.title "skipped"] } : GState).context
        ({ n with state := NState.skipped } : Node).task arg = none from hcheck]
    dsimp only
    rw [if_pos rfl]
    refine lt_of_le_of_lt (workLeft_refresh_le _) ?_
    show (((s.nodes.set i { n with state := NState.skipped }).set i
        ⟨n.task, NState.skipped, true⟩).map wt).sum < (s.nodes.map wt).sum
    rw [List.set_set]
    exact sum_wt_set_lt s.nodes i n _ hget (by simp [wt, hrun])

theorem applyResult_context_of_ok (s : GState) (i : Nat) (n : Node) (result : Obj)
    (h : checkResult s.context n.task result = none) :
    (applyResult s i n result).context = s.context ++ result := by
  unfold applyResult
  rw [h]
  dsimp only
  split
  · rw [refresh_context]
    rfl
  · rw [refresh_context]
    rfl

theorem applyResult_settled_of_err (s : GState) (i : Nat) (n : Node) (result : Obj)
    (e : String) (h : checkResult s.context n.task result = some e)
    (hs : s.settled = none) :
    (applyResult s i n result).settled = some (some e) := by
  unfold applyResult
  rw [h]
  exact settleReject_settled_of_none _ _ (by rw [setNode_settled]; exact hs)

theorem applyResult_finishes (s : GState) (i : Nat) (n : Node) (result : Obj)
    (h : checkResult s.context n.task result = none)
    (hst : n.state = NState.running) (hi : i < s.nodes.length) :
    (applyResult s i n result).nodes[i]? =
      some { n with state := NState.finished, done := true } := by
  unfold applyResult
  rw [h]
  dsimp only
  rw [if_neg (by rw [hst]; intro hc; exact NState.noConfusion hc)]
  rw [refresh_nodes, admitAll_getElem?]
  have hset : (setNode { s with context := s.context ++ result } i
      { n with state := NState.finished, done := true }).nodes[i]? =
      some { n with state := NState.finished, done := true } := by
    unfold setNode
    exact List.getElem?_set_self (by simpa using hi)
  rw [show (({ (setNode { s with context := s.context ++ result } i
      { n with state := NState.finished, done := true }) with
      log := _ ++ [Update.state n.task.title "finished"] } : GState)).nodes =
      (setNode { s with context := s.context ++ result } i
      { n with state := NState.finished, done := true }).nodes from rfl]
  rw [hset, Option.map_some',
    admitOne_of_not_pending _ _ (fun hc => NState.noConfusion hc)]

theorem countP_set {α : Type} (p : α → Bool) (l : List α) (i : Nat) (n m : α)
    (h : l[i]? = some n) :
    (l.set i m).countP p + (if p n then 1 else 0) =
      l.countP p + (if p m then 1 else 0) := by
  induction l generalizing i with
  | nil => exact absurd h (by simp)
  | cons x xs ih =>
    cases i with
    | zero =>
      have hx : x = n := Option.some.inj (by simpa using h)
      subst hx
      simp only [List.set_cons_zero, List.countP_cons]
      omega
    | succ i2 =>
      simp only [List.set_cons_succ, List.countP_cons]
      have := ih i2 (by simpa using h)
      omega

theorem outState_ne_running (o : LOutcome) : outState o ≠ LNState.running := by
  cases o <;> (intro h; exact LNState.noConfusion h)

theorem lock_inv (cap : String → Nat) (tasks : List LTask) (ctx0 : List String)
    (s : LState) (hr : LReach cap tasks ctx0 s) :
    ∀ nm : String, s.held nm = runHolders s nm ∧ s.held nm ≤ cap nm := by
  induction hr with
  | init =>
    intro nm
    refine ⟨?_, Nat.zero_le _⟩
    show (0 : Nat) = runHolders (LInit tasks ctx0) nm
    rw [eq_comm]
    refine List.countP_eq_zero.mpr ?_
    intro a ha
    rcases List.mem_map.mp ha with ⟨t, _, rfl⟩
    simp
  | step hprev hstep ih =>
    rename_i s s2
    cases hstep with
    | startNode i n hget hp herr hreq hlock =>
      intro nm
      obtain ⟨ih1, ih2⟩ := ih nm
      have hcnt := countP_set
        (fun nd => decide (nd.state = LNState.running) && decide (nm ∈ nd.task.locks))
        s.nodes i n ⟨n.task, LNState.running⟩ hget
      unfold runHolders at ih1
      show acqLocks n.task.locks s.held nm =
          List.countP (fun nd => decide (nd.state = LNState.running) &&
            decide (nm ∈ nd.task.locks)) (s.nodes.set i ⟨n.task, LNState.running⟩) ∧
        acqLocks n.task.locks s.held nm ≤ cap nm
      unfold acqLocks
      by_cases hmem : nm ∈ n.task.locks
      · simp [hp, hmem] at hcnt
        rw [if_pos hmem]
        exact ⟨by omega, hlock nm hmem⟩
      · simp [hp, hmem] at hcnt
        rw [if_neg hmem]
        exact ⟨by omega, ih2⟩
    | complete i n o hget hr2 =>
      intro nm
      obtain ⟨ih1, ih2⟩ := ih nm
      have hcnt := countP_set
        (fun nd => decide (nd.state = LNState.running) && decide (nm ∈ nd.task.locks))
        s.nodes i n ⟨n.task, outState o⟩ hget
      unfold runHolders at ih1
      have hno := outState_ne_running o
      show relLocks n.task.locks s.held nm =
          List.countP (fun nd => decide (nd.state = LNState.running) &&
            decide (nm ∈ nd.task.locks)) (s.nodes.set i ⟨n.task, outState o⟩) ∧
        relLocks n.task.locks s.held nm ≤ cap nm
      unfold relLocks
      by_cases hmem : nm ∈ n.task.locks
      · simp [hr2, hmem, hno] at hcnt
        rw [if_pos hmem]
        exact ⟨by omega, by omega⟩
      · simp [hr2, hmem, hno] at hcnt
        rw [if_neg hmem]
        exact ⟨by omega, ih2⟩

/-- Claim C3 (spec-modelled: `Lock` and the lock-aware scheduler are
absent from `src/taskgraph.js`; both are modelled from §4.1-§4.3 of the
spec): in every reachable state of a lock-aware run, each lock's
held-count equals the number of running nodes declaring it and never
exceeds the lock's capacity (`0 ≤ n ≤ N` holds since counts are
naturals); and on the `Lock` operations themselves, `acquire` fails
fatally exactly when the lock is unavailable (n = N under the
invariant) and otherwise increments n, while `release` fails fatally
exactly when n would go negative and otherwise decrements n. -/
theorem c3_lock_capacity (cap : String → Nat) (tasks : List LTask)
    (ctx0 : List String) (s : LState) (hr : LReach cap tasks ctx0 s) :
    (∀ nm : String, s.held nm = runHolders s nm ∧ s.held nm ≤ cap nm) ∧
    (∀ l : Lock,
      (Lock.available l = true ↔ l.held < l.cap) ∧
      (Lock.acquire l = none ↔ l.cap ≤ l.held) ∧
      (∀ l2 : Lock, Lock.acquire l = some l2 → l2 = ⟨l.cap, l.held + 1⟩) ∧
      (Lock.release l = none ↔ l.held = 0) ∧
      (∀ l2 : Lock, Lock.release l = some l2 → l2 = ⟨l.cap, l.held - 1⟩)) := by
  refine ⟨lock_inv cap tasks ctx0 s hr, ?_⟩
  intro l
  refine ⟨by simp [Lock.available], ?_, ?_, ?_, ?_⟩
  · unfold Lock.acquire
    split
    · rename_i hc
      simp only [reduceCtorEq, false_iff]
      omega
    · rename_i hc
      simp only [true_iff]
      omega
  · intro l2
    unfold Lock.acquire
    split
    · intro h
      cases Option.some.inj h
      rfl
    · intro h
      exact Option.noConfusion h
  · unfold Lock.release
    split
    · rename_i hc
      simp only [true_iff]
      exact hc
    · rename_i hc
      simp only [reduceCtorEq, false_iff]
      exact hc
  · intro l2
    unfold Lock.release
    split
    · intro h
      exact Option.noConfusion h
    · intro h
      cases Option.some.inj h
      rfl

/-- Witness for C3 at a concrete input: the one-task lock run over
`qbit` (capacity 2) right after admitting the task: the held count is 1,
equals the running-holder count, and respects the capacity. -/
theorem c3_lock_capacity_witness :
    (lkS1.held "qbit" = runHolders lkS1 "qbit" ∧ lkS1.held "qbit" ≤ 2) ∧
    (Lock.acquire ⟨2, 2⟩ = none ∧ Lock.release ⟨2, 0⟩ = none) := by
  have hstep : LStep (fun _ => 2) (LInit [lkTask] []) lkS1 :=
    LStep.startNode (LInit [lkTask] []) 0 ⟨lkTask, LNState.pending⟩ rfl rfl rfl
      (fun k hk => absurd hk (List.not_mem_nil k))
      (fun nm _ => Nat.zero_lt_two)
  have h := c3_lock_capacity (fun _ => 2) [lkTask] [] lkS1
    (LReach.step LReach.init hstep)
  refine ⟨⟨(h.1 "qbit").1, (h.1 "qbit").2⟩, ?_, ?_⟩
  · exact ((h.2 ⟨2, 2⟩).2.1).mpr (Nat.le_refl 2)
  · exact ((h.2 ⟨2, 0⟩).2.2.2.1).mpr rfl

theorem closStep_subset (tasks : List Task) (ks : Finset String) :
    ks ⊆ closStep tasks ks :=
  Finset.subset_union_left

theorem mem_condFold {c : Task → Bool} {tasks : List Task} {x : String}
    (hx : x ∈ tasks.foldr
      (fun t acc => if c t then t.requires.toFinset ∪ acc else acc) ∅) :
    ∃ t ∈ tasks, c t = true ∧ x ∈ t.requires.toFinset := by
  induction tasks with
  | nil => simp at hx
  | cons t ts ih =>
    rw [List.foldr_cons] at hx
    by_cases hc : c t
    · rw [if_pos hc] at hx
      rcases Finset.mem_union.mp hx with h | h
      · exact ⟨t, List.mem_cons_self t ts, hc, h⟩
      · rcases ih h with ⟨t2, ht2, hc2, hx2⟩
        exact ⟨t2, List.mem_cons_of_mem t ht2, hc2, hx2⟩
    · rw [if_neg hc] at hx
      rcases ih hx with ⟨t2, ht2, hc2, hx2⟩
      exact ⟨t2, List.mem_cons_of_mem t ht2, hc2, hx2⟩

theorem mem_allRequires {tasks : List Task} {t : Task} (ht : t ∈ tasks) {x : String}
    (hx : x ∈ t.requires.toFinset) : x ∈ allRequires tasks := by
  induction tasks with
  | nil => cases ht
  | cons t2 ts ih =>
    show x ∈ t2.requires.toFinset ∪ _
    rcases List.mem_cons.mp ht with rfl | ht2
    · exact Finset.mem_union.mpr (Or.inl hx)
    · exact Finset.mem_union.mpr (Or.inr (ih ht2))

theorem closStep_bound (tasks : List Task) (ks : Finset String) :
    closStep tasks ks ⊆ ks ∪ allRequires tasks := by
  intro x hx
  rcases Finset.mem_union.mp hx with h | h
  · exact Finset.mem_union.mpr (Or.inl h)
  · rcases mem_condFold h with ⟨t, ht, _, hxr⟩
    exact Finset.mem_union.mpr (Or.inr (mem_allRequires ht hxr))

theorem closStep_prov {tasks : List Task} {ks : Finset String} {t : Task}
    (ht : t ∈ tasks) (hp : t.provides.any (fun p => decide (p ∈ ks)) = true) :
    t.requires.toFinset ⊆ closStep tasks ks := by
  intro x hx
  refine Finset.mem_union.mpr (Or.inr ?_)
  induction tasks with
  | nil => cases ht
  | cons t2 ts ih =>
    rw [List.foldr_cons]
    rcases List.mem_cons.mp ht with rfl | ht2
    · rw [if_pos hp]
      exact Finset.mem_union.mpr (Or.inl hx)
    · by_cases hc : t2.provides.any (fun p => decide (p ∈ ks))
      · rw [if_pos hc]
        exact Finset.mem_union.mpr (Or.inr (ih ht2))
      · rw [if_neg hc]
        exact ih ht2

theorem closStep_le_closed {tasks : List Task} {ks S : Finset String}
    (hks : ks ⊆ S)
    (hcl : ∀ t ∈ tasks, (∃ p ∈ t.provides, p ∈ S) → ∀ r ∈ t.requires, r ∈ S) :
    closStep tasks ks ⊆ S := by
  intro x hx
  rcases Finset.mem_union.mp hx with h | h
  · exact hks h
  · rcases mem_condFold h with ⟨t, ht, hc, hxr⟩
    rcases List.any_eq_true.mp hc with ⟨p, hp, hpk⟩
    exact hcl t ht ⟨p, hp, hks (of_decide_eq_true hpk)⟩ x (List.mem_toFinset.mp hxr)

theorem closIter_subset (tasks : List Task) :
    ∀ (fuel : Nat) (ks : Finset String), ks ⊆ closIter tasks fuel ks := by
  intro fuel
  induction fuel with
  | zero => exact fun ks => Finset.Subset.refl ks
  | succ f ih =>
    exact fun ks => Finset.Subset.trans (closStep_subset tasks ks) (ih (closStep tasks ks))

theorem closIter_succ_out (tasks : List Task) :
    ∀ (fuel : Nat) (ks : Finset String),
      closIter tasks (fuel + 1) ks = closStep tasks (closIter tasks fuel ks) := by
  intro fuel
  induction fuel with
  | zero => exact fun ks => rfl
  | succ f ih =>
    intro ks
    show closIter tasks (f + 1) (closStep tasks ks) = _
    rw [ih (closStep tasks ks)]
    rfl

theorem closIter_stable (tasks : List Task) (ks : Finset String)
    (hfix : closStep tasks ks = ks) : ∀ fuel : Nat, closIter tasks fuel ks = ks := by
  intro fuel
  induction fuel with
  | zero => rfl
  | succ f ih =>
    show closIter tasks f (closStep tasks ks) = ks
    rw [hfix]
    exact ih

theorem closIter_add (tasks : List Task) (a : Nat) :
    ∀ (b : Nat) (ks : Finset String),
      closIter tasks (a + b) ks = closIter tasks a (closIter tasks b ks) := by
  intro b
  induction b with
  | zero => exact fun ks => rfl
  | succ b2 ih =>
    intro ks
    show closIter tasks (a + b2) (closStep tasks ks) = _
    exact ih (closStep tasks ks)

theorem closIter_bound (tasks : List Task) :
    ∀ (fuel : Nat) (ks : Finset String),
      closIter tasks fuel ks ⊆ ks ∪ allRequires tasks := by
  intro fuel
  induction fuel with
  | zero => exact fun ks => Finset.subset_union_left
  | succ f ih =>
    intro ks
    refine Finset.Subset.trans (ih (closStep tasks ks)) ?_
    intro x hx
    rcases Finset.mem_union.mp hx with h | h
    · exact closStep_bound tasks ks h
    · exact Finset.mem_union.mpr (Or.inr h)

theorem closIter_grow (tasks : List Task) (targets : Finset String) :
    ∀ j : Nat,
      (∀ m : Nat, m < j →
        closStep tasks (closIter tasks m targets) ≠ closIter tasks m targets) →
      targets.card + j ≤ (closIter tasks j targets).card := by
  intro j
  induction j with
  | zero =>
    intro _
    show targets.card + 0 ≤ targets.card
    omega
  | succ j2 ih =>
    intro hne
    have h1 := ih (fun m hm => hne m (Nat.lt_succ_of_lt hm))
    have hsub : closIter tasks j2 targets ⊆ closIter tasks (j2 + 1) targets := by
      rw [closIter_succ_out]
      exact closStep_subset tasks _
    have hne2 : closIter tasks j2 targets ≠ closIter tasks (j2 + 1) targets := by
      rw [closIter_succ_out]
      exact fun h => hne j2 (Nat.lt_succ_self j2) h.symm
    have hlt : (closIter tasks j2 targets).card < (closIter tasks (j2 + 1) targets).card :=
      Finset.card_lt_card (Finset.ssubset_iff_subset_ne.mpr ⟨hsub, hne2⟩)
    omega

theorem reqClosure_fixed (tasks : List Task) (targets : Finset String) :
    closStep tasks (reqClosure tasks targets) = reqClosure tasks targets := by
  by_cases hex : ∃ n : Nat, n ≤ (allRequires tasks).card ∧
      closStep tasks (closIter tasks n targets) = closIter tasks n targets
  · obtain ⟨n, hnB, hfix⟩ := hex
    unfold reqClosure
    have hsplit : (allRequires tasks).card + 1 = ((allRequires tasks).card + 1 - n) + n := by
      omega
    rw [hsplit, closIter_add, closIter_stable tasks _ hfix]
    exact hfix
  · push_neg at hex
    exfalso
    have hgrow := closIter_grow tasks targets ((allRequires tasks).card + 1)
      (fun m hm => hex m (by omega))
    have hbound := Finset.card_le_card (closIter_bound tasks ((allRequires tasks).card + 1)
      targets)
    have hcard := Finset.card_union_le targets (allRequires tasks)
    omega

theorem reqClosure_closed (tasks : List Task) (targets : Finset String) :
    ∀ t ∈ tasks, (∃ p ∈ t.provides, p ∈ reqClosure tasks targets) →
      ∀ r ∈ t.requires, r ∈ reqClosure tasks targets := by
  intro t ht hp r hr
  rw [← reqClosure_fixed tasks targets]
  refine closStep_prov ht ?_ (List.mem_toFinset.mpr hr)
  rcases hp with ⟨p, hpp, hpc⟩
  exact List.any_eq_true.mpr ⟨p, hpp, decide_eq_true hpc⟩

theorem closIter_le_closed (tasks : List Task) (S : Finset String)
    (hcl : ∀ t ∈ tasks, (∃ p ∈ t.provides, p ∈ S) → ∀ r ∈ t.requires, r ∈ S) :
    ∀ (fuel : Nat) (ks : Finset String), ks ⊆ S → closIter tasks fuel ks ⊆ S := by
  intro fuel
  induction fuel with
  | zero => exact fun ks h => h
  | succ f ih => exact fun ks h => ih (closStep tasks ks) (closStep_le_closed h hcl)

/-- Claim C7 (spec-modelled: `src/taskgraph.js` has no targeting — its
constructor takes no `target` option — while the test files exercise
one; modelled from §4.2 of the spec): `reqClosure` is exactly the
requirement closure of the targets (it contains the targets, is closed
under adding the requires of any task providing a closure key, and is
the least such set), and pruning keeps exactly — and hence minimally —
the tasks providing a key of that closure.  On the repository's
reference graph, targeting key `6` selects exactly D1, D2, D3, D4
(D5 is discarded), and the chain-free target `1` selects exactly its
direct provider D1. -/
theorem c7_targeting (tasks : List Task) (targets : Finset String) :
    (∀ k ∈ targets, k ∈ reqClosure tasks targets) ∧
    (∀ t ∈ tasks, (∃ p ∈ t.provides, p ∈ reqClosure tasks targets) →
      ∀ r ∈ t.requires, r ∈ reqClosure tasks targets) ∧
    (∀ S : Finset String, targets ⊆ S →
      (∀ t ∈ tasks, (∃ p ∈ t.provides, p ∈ S) → ∀ r ∈ t.requires, r ∈ S) →
      reqClosure tasks targets ⊆ S) ∧
    (∀ t : Task, t ∈ targetPrune tasks targets ↔
      t ∈ tasks ∧ ∃ p ∈ t.provides, p ∈ reqClosure tasks targets) ∧
    (targetPrune dTasks {"6"}).map Task.title = ["D1", "D2", "D3", "D4"] ∧
    (targetPrune dTasks {"1"}).map Task.title = ["D1"] := by
  refine ⟨fun k hk => closIter_subset tasks _ targets hk,
    reqClosure_closed tasks targets,
    fun S hts hcl => closIter_le_closed tasks S hcl _ targets hts,
    ?_, by decide, by decide⟩
  intro t
  unfold targetPrune
  rw [List.mem_filter]
  constructor
  · rintro ⟨h1, h2⟩
    rcases List.any_eq_true.mp h2 with ⟨p, hp, hpc⟩
    exact ⟨h1, p, hp, of_decide_eq_true hpc⟩
  · rintro ⟨h1, p, hp, hpc⟩
    exact ⟨h1, List.any_eq_true.mpr ⟨p, hp, decide_eq_true hpc⟩⟩

/-- Witness for C7 at a concrete input: on the reference graph with
target `6`, the target key is in the closure, D4's requires are pulled
into the closure because D4 provides `6`, and D4 is kept by the
pruning. -/
theorem c7_targeting_witness :
    ("6" ∈ reqClosure dTasks {"6"}) ∧
    (∀ r ∈ dT4.requires, r ∈ reqClosure dTasks {"6"}) ∧
    (dT4 ∈ targetPrune dTasks {"6"}) := by
  have h := c7_targeting dTasks {"6"}
  have hmem : dT4 ∈ dTasks := by
    unfold dTasks
    exact List.mem_cons_of_mem _ (List.mem_cons_of_mem _ (List.mem_cons_of_mem _
      (List.mem_cons_self _ _)))
  refine ⟨h.1 "6" (by decide), h.2.1 dT4 hmem ⟨"6", by decide, by decide⟩, ?_⟩
  exact (h.2.2.2.1 dT4).mpr ⟨hmem, "6", by decide, by decide⟩

/-- Claim C5 (code bug): in `src/taskgraph.js` a task body that throws
leaves its node in the `running` state forever and sends the renderer no
`state failed` and no `fail` update — `_runNode` has no catch, the file
never assigns a `failed` state, and `renderer.update` is never called
with `fail`.  The run's promise simply rejects with the error.  Run on
the `renders failures` test input (one task whose body throws
`Error('uhoh')`): the renderer log is exactly start / running / stop. -/
theorem c5_throw_leaves_node_running :
    CanComplete (initState [failTask] []) 0 ∧
    (complete (initState [failTask] []) 0).settled = some (some "uhoh") ∧
    (complete (initState [failTask] []) 0).nodes.map Node.state = [NState.running] ∧
    (complete (initState [failTask] []) 0).log =
      [Update.start, Update.state "FAIL" "running", Update.stop] := by
  exact ⟨⟨_, rfl, rfl, rfl⟩, by decide, by decide, by decide⟩

/-- Claim C1 (code bug): `run`'s promise in `src/taskgraph.js` rejects
via `.catch(reject)` the moment the first body throws, with no drain of
in-flight work: with tasks `F1` (throws `uhoh 1`) and `OK` (still
running), the promise is already rejected (and `renderer.stop` called)
while `OK` is still in the `running` state and the failed node itself
never reaches a terminal state. -/
theorem c1_rejects_without_drain :
    CanComplete (initState [drainF1, drainOK] []) 0 ∧
    (complete (initState [drainF1, drainOK] []) 0).settled = some (some "uhoh 1") ∧
    (complete (initState [drainF1, drainOK] []) 0).nodes.map Node.state =
      [NState.running, NState.running] ∧
    ((complete (initState [drainF1, drainOK] []) 0).nodes.all isTerminal) = false := by
  exact ⟨⟨_, rfl, rfl, rfl⟩, by decide, by decide, by decide⟩

/-- Claim C2 (code bug): in `src/taskgraph.js` nothing guards admission
after an error: `refresh` has no error check, so after `A`'s failure has
rejected the run, `B`'s completion still calls `refresh`, which admits
the pending node `C` to `running`.  The log shows `C` starting after the
`stop` that accompanied the rejection. -/
theorem c2_admits_new_work_after_error :
    CanComplete (initState [admitA, admitB, admitC] []) 0 ∧
    (complete (initState [admitA, admitB, admitC] []) 0).settled = some (some "uhoh") ∧
    (complete (initState [admitA, admitB, admitC] []) 0).nodes.map Node.state =
      [NState.running, NState.running, NState.pending] ∧
    CanComplete (complete (initState [admitA, admitB, admitC] []) 0) 1 ∧
    (complete (complete (initState [admitA, admitB, admitC] []) 0) 1).nodes.map Node.state =
      [NState.running, NState.finished, NState.running] ∧
    (complete (complete (initState [admitA, admitB, admitC] []) 0) 1).log =
      [Update.start, Update.state "A" "running", Update.state "B" "running",
       Update.stop, Update.state "B" "finished", Update.state "C" "running"] := by
  exact ⟨⟨_, rfl, rfl, rfl⟩, by decide, by decide, ⟨_, rfl, rfl, rfl⟩, by decide, by decide⟩

/-- Claim C6 (code bug): `utils.skip` in `src/taskgraph.js` takes the
provided mapping itself (`utils.skip = provided => ...`), sends no
`skip` update and knows no reason; a body written against the
specified `skip({provides, reason})` options shape — as in the
repository's own `utils.skip` test — therefore returns
`{provides: {...}}` as its result, which fails contract validation with
`provided unexpected provides`: the run rejects, the supplied values
never reach the context, and the renderer sees no `skip` update. -/
theorem c6_skip_options_shape_rejected :
    CanComplete (initState [skipTask] []) 0 ∧
    (complete (initState [skipTask] []) 0).settled =
      some (some "Task SKIP provided unexpected provides") ∧
    keys (complete (initState [skipTask] []) 0).context = [] ∧
    (complete (initState [skipTask] []) 0).nodes.map Node.state = [NState.skipped] ∧
    (complete (initState [skipTask] []) 0).log =
      [Update.start, Update.state "SKIP" "running",
       Update.state "SKIP" "skipped", Update.stop] := by
  exact ⟨⟨_, rfl, rfl, rfl⟩, by decide, by decide, by decide, by decide⟩

theorem c4wf : WellFormed [] [c4TaskP, c4TaskQ] := by
  refine ⟨?_, ?_, ?_⟩
  · intro t ht
    fin_cases ht <;> simp [BodyOK, c4TaskP, c4TaskQ]
  · simp [List.pairwise_cons, c4TaskP, c4TaskQ]
  · intro t ht k hk
    simp [keys]

theorem c4topo : Topo [] [c4TaskP, c4TaskQ] := by
  refine ⟨fun j => j, ?_⟩
  intro i ti hti k hk
  rcases i with _ | _ | i
  · rw [show ([c4TaskP, c4TaskQ] : List Task)[0]? = some c4TaskP from rfl] at hti
    cases Option.some.inj hti
    simp [c4TaskP] at hk
  · rw [show ([c4TaskP, c4TaskQ] : List Task)[1]? = some c4TaskQ from rfl] at hti
    cases Option.some.inj hti
    simp [c4TaskQ] at hk
    subst hk
    right
    exact ⟨0, c4TaskP, rfl, Nat.zero_lt_one, by simp [c4TaskP]⟩
  · rw [show ([c4TaskP, c4TaskQ] : List Task)[i + 2]? = none from rfl] at hti
    exact Option.noConfusion hti

/-- Claim C4: over a well-formed task set (no failing bodies, no
duplicated provides, no provide already pre-seeded), the promise of
`run` has resolved in a reachable state exactly when every node is
terminal (finished or skipped); at resolution the context keys are
exactly the pre-seeded keys plus the union of the provided keys of the
(terminal) nodes; under an acyclic requires/provides relationship an
unresolved run always has a settleable node (no deadlock); and every
body settlement strictly decreases the termination measure, so the run
terminates. -/
theorem c4_run_resolution (ctx0 : Obj) (tasks : List Task)
    (hwf : WellFormed ctx0 tasks) (s : GState) (hr : Reachable tasks ctx0 s) :
    (s.settled = some none ↔
      ∀ (i : Nat) (n : Node), s.nodes[i]? = some n → termNode n) ∧
    (s.settled = some none →
      ∀ k, k ∈ keys s.context ↔
        (k ∈ keys ctx0 ∨
         ∃ (i : Nat) (n : Node),
           s.nodes[i]? = some n ∧ termNode n ∧ k ∈ n.task.provides)) ∧
    (Topo ctx0 tasks → s.settled = none → ∃ i : Nat, CanComplete s i) ∧
    (∀ i : Nat, CanComplete s i → workLeft (complete s i) < workLeft s) := by
  have hInv := inv_reachable ctx0 tasks hwf s hr
  exact ⟨hInv.resolvedIff, fun _ => hInv.ctxChar,
    fun ht hn => progress ctx0 tasks hwf ht s hInv hn,
    fun i hc => workLeft_complete_lt ctx0 tasks hwf s hInv i hc⟩

/-- Witness for C4 at a concrete input: the two-task chain `P` → `Q`
right after the initial admission pass, where the run is unresolved,
`P` can settle, and settling it decreases the measure. -/
theorem c4_run_resolution_witness :
    ((initState [c4TaskP, c4TaskQ] []).settled = some none ↔
      ∀ (i : Nat) (n : Node), (initState [c4TaskP, c4TaskQ] []).nodes[i]? = some n →
        termNode n) ∧
    (∃ i : Nat, CanComplete (initState [c4TaskP, c4TaskQ] []) i) ∧
    workLeft (complete (initState [c4TaskP, c4TaskQ] []) 0) <
      workLeft (initState [c4TaskP, c4TaskQ] []) := by
  have h := c4_run_resolution [] [c4TaskP, c4TaskQ] c4wf _ Reachable.init
  exact ⟨h.1, h.2.2.1 c4topo rfl, h.2.2.2 0 ⟨_, rfl, rfl, rfl⟩⟩

/-- Claim C8: for a non-falsy result, the contract check of `_runNode`
fails exactly when some result key is already in the context, some
result key is undeclared in `provides`, or some declared `provides` key
is absent from the result; a failing check rejects the run's promise
with the assertion message (a missing provide is reported as
`did not provide expected <key>`), and a passing check merges the result
into the context and moves the node to `finished`. -/
theorem c8_result_contract (s : GState) (i : Nat) (n : Node) (result : Obj) :
    (checkResult s.context n.task result ≠ none ↔
      (∃ k ∈ keys result, k ∈ keys s.context) ∨
      (∃ k ∈ keys result, k ∉ n.task.provides) ∨
      (∃ p ∈ n.task.provides, p ∉ keys result)) ∧
    (∀ e, checkResult s.context n.task result = some e → s.settled = none →
      (applyResult s i n result).settled = some (some e)) ∧
    (checkResult s.context n.task result = none →
      (applyResult s i n result).context = s.context ++ result) ∧
    (checkResult s.context n.task result = none → n.state = NState.running →
      i < s.nodes.length →
      (applyResult s i n result).nodes[i]? =
        some { n with state := NState.finished, done := true }) ∧
    ((∀ k ∈ keys result, k ∉ keys s.context ∧ k ∈ n.task.provides) →
      ∀ e, checkResult s.context n.task result = some e →
        ∃ p ∈ n.task.provides, p ∉ keys result ∧
          e = "Task " ++ n.task.title ++ " did not provide expected " ++ p) := by
  refine ⟨?_, ?_, ?_, ?_, ?_⟩
  · rw [Ne, checkResult_eq_none_iff]
    constructor
    · intro h
      by_contra hc
      push_neg at hc
      obtain ⟨h1, h2, h3⟩ := hc
      exact h ⟨fun k hk => ⟨h1 k hk, h2 k hk⟩, h3⟩
    · rintro (⟨k, hk, hkc⟩ | ⟨k, hk, hkp⟩ | ⟨p, hp, hpk⟩) hgood
      · exact (hgood.1 k hk).1 hkc
      · exact hkp (hgood.1 k hk).2
      · exact hpk (hgood.2 p hp)
  · exact fun e he hs => applyResult_settled_of_err s i n result e he hs
  · exact fun h => applyResult_context_of_ok s i n result h
  · exact fun h hst hi => applyResult_finishes s i n result h hst hi
  · intro hok e he
    unfold checkResult at he
    rw [(checkKeys_eq_none_iff s.context n.task (keys result)).mpr hok] at he
    exact checkProvides_eq_some n.task (keys result) n.task.provides e he

/-- Witness for C8 at concrete inputs: a good result for `wTask` merges
and finishes; the result `{b: true}` (undeclared key) rejects with the
`provided unexpected` message. -/
theorem c8_result_contract_witness :
    (applyResult wState 0 wNode [("a", Value.vbool true)]).context =
      wState.context ++ [("a", Value.vbool true)] ∧
    (applyResult wState 0 wNode [("a", Value.vbool true)]).nodes[0]? =
      some { wNode with state := NState.finished, done := true } ∧
    (applyResult wState 0 wNode [("b", Value.vbool true)]).settled =
      some (some "Task T provided unexpected b") := by
  have h := c8_result_contract wState 0 wNode [("a", Value.vbool true)]
  have h2 := c8_result_contract wState 0 wNode [("b", Value.vbool true)]
  exact ⟨h.2.2.1 (by decide), h.2.2.2.1 (by decide) (by decide) (by decide),
    h2.2.1 _ (by decide) (by decide)⟩

/-- Claim C9: a falsy task-body result is synthesized by `_runNode` into
`{key: true}` when exactly one `provides` key is declared and into `{}`
when none is, and merged accordingly; with more than one declared key
the assertion throws the `provides multiple results` error and the run's
promise rejects with it. -/
theorem c9_falsy_result (s : GState) (i : Nat) (n : Node) :
    (n.task.provides = [] →
      synthFalsy n.task none = Except.ok [] ∧
      (applyResult s i n []).context = s.context) ∧
    (∀ k, n.task.provides = [k] →
      synthFalsy n.task none = Except.ok [(k, Value.vbool true)] ∧
      (k ∉ keys s.context →
        (applyResult s i n [(k, Value.vbool true)]).context =
          s.context ++ [(k, Value.vbool true)])) ∧
    (1 < n.task.provides.length →
      synthFalsy n.task none = Except.error
        ("Task " ++ n.task.title ++
          " provides multiple results, but did not return any values") ∧
      (n.task.body = Body.ret none → s.nodes[i]? = some n →
        n.state = NState.running → n.done = false → s.settled = none →
        (complete s i).settled = some (some ("Task " ++ n.task.title ++
          " provides multiple results, but did not return any values")))) := by
  refine ⟨?_, ?_, ?_⟩
  · intro h
    constructor
    · simp [synthFalsy, h]
    · rw [applyResult_context_of_ok s i n []
        ((checkResult_eq_none_iff _ _ _).mpr ⟨by simp [keys], by simp [h]⟩)]
      exact List.append_nil s.context
  · intro k hk
    constructor
    · simp [synthFalsy, hk]
    · intro hnc
      exact applyResult_context_of_ok s i n [(k, Value.vbool true)]
        ((checkResult_eq_none_iff _ _ _).mpr
          ⟨by
            intro x hx
            simp [keys] at hx
            subst hx
            exact ⟨hnc, by simp [hk]⟩,
           by simp [keys, hk]⟩)
  · intro hlen
    have hsf : synthFalsy n.task none = Except.error ("Task " ++ n.task.title ++
        " provides multiple results, but did not return any values") := by
      simp [synthFalsy, show ¬n.task.provides.length ≤ 1 from by omega]
    refine ⟨hsf, ?_⟩
    intro hbody hget hrun hdone hs
    unfold complete
    rw [hget]
    dsimp only
    rw [if_pos ⟨hrun, hdone⟩, hbody]
    dsimp only
    rw [hsf]
    dsimp only
    exact settleReject_settled_of_none _ _ (by rw [setNode_settled]; exact hs)

/-! Lemmas for the renderer-protocol invariant. -/

theorem head?_append_of_some {α : Type} {l1 l2 : List α} {a : α}
    (h : l1.head? = some a) : (l1 ++ l2).head? = some a := by
  cases l1 with
  | nil => exact Option.noConfusion h
  | cons x xs => simpa using h

theorem admitLogs_only_state (ctx : Obj) (ns : List Node) :
    ∀ u ∈ admitLogs ctx ns, u ≠ Update.start ∧ u ≠ Update.stop := by
  intro u hu
  unfold admitLogs at hu
  rcases List.mem_filterMap.mp hu with ⟨n, _, hf⟩
  split at hf
  · cases hf
    exact ⟨fun h => Update.noConfusion h, fun h => Update.noConfusion h⟩
  · exact Option.noConfusion hf

theorem logOK_append_states (s : GState) (l : List Update)
    (hl : ∀ u ∈ l, u ≠ Update.start ∧ u ≠ Update.stop) (h : logOK s) :
    logOK { s with log := s.log ++ l } := by
  obtain ⟨h1, h2, h3⟩ := h
  refine ⟨head?_append_of_some h1, ?_, ?_⟩
  · have : l.count Update.start = 0 :=
      List.count_eq_zero.mpr (fun hm => (hl _ hm).1 rfl)
    simp only [List.count_append, this]
    simpa using h2
  · have : l.count Update.stop = 0 :=
      List.count_eq_zero.mpr (fun hm => (hl _ hm).2 rfl)
    simp only [List.count_append, this]
    simpa using h3

theorem logOK_resolveCheck (s : GState) (h : logOK s) : logOK (resolveCheck s) := by
  obtain ⟨h1, h2, h3⟩ := h
  unfold resolveCheck
  split
  · rename_i hc
    refine ⟨head?_append_of_some h1, ?_, ?_⟩
    · simp [List.count_append, h2, List.count_cons]
    · have h0 : s.log.count Update.stop = 0 := by
        rw [hc.1] at h3
        simpa using h3
      simp [List.count_append, h0, List.count_cons]
  · exact ⟨h1, h2, h3⟩

theorem logOK_refresh (s : GState) (h : logOK s) : logOK (refresh s) := by
  unfold refresh
  exact logOK_resolveCheck _
    (logOK_append_states s (admitLogs s.context s.nodes)
      (admitLogs_only_state s.context s.nodes) h)

theorem logOK_settleReject (s : GState) (m : String) (h : logOK s) :
    logOK (settleReject s m) := by
  obtain ⟨h1, h2, h3⟩ := h
  unfold settleReject
  split
  · rename_i hc
    refine ⟨head?_append_of_some h1, ?_, ?_⟩
    · simp [List.count_append, h2, List.count_cons]
    · have h0 : s.log.count Update.stop = 0 := by
        rw [hc] at h3
        simpa using h3
      simp [List.count_append, h0, List.count_cons]
  · exact ⟨h1, h2, h3⟩

theorem logOK_appendState (s : GState) (t st : String) (h : logOK s) :
    logOK { s with log := s.log ++ [Update.state t st] } := by
  refine logOK_append_states s _ ?_ h
  intro u hu
  rcases List.mem_singleton.mp hu with rfl
  exact ⟨fun hc => Update.noConfusion hc, fun hc => Update.noConfusion hc⟩

theorem logOK_applyResult (s : GState) (i : Nat) (n : Node) (result : Obj)
    (h : logOK s) : logOK (applyResult s i n result) := by
  unfold applyResult
  cases hcr : checkResult s.context n.task result with
  | some e => exact logOK_settleReject _ _ h
  | none =>
    dsimp only
    split
    · exact logOK_refresh _ h
    · exact logOK_refresh _ (logOK_appendState _ n.task.title "finished" h)

theorem logOK_complete (s : GState) (i : Nat) (h : logOK s) :
    logOK (complete s i) := by
  unfold complete
  cases hget : s.nodes[i]? with
  | none => exact h
  | some n =>
    dsimp only
    split
    · cases hbody : n.task.body with
      | err m => exact logOK_settleReject _ _ h
      | ret r =>
        dsimp only
        cases hsf : synthFalsy n.task r with
        | error e => exact logOK_settleReject _ _ h
        | ok result => exact logOK_applyResult _ _ _ _ h
      | skipRet arg =>
        exact logOK_applyResult _ _ _ _ (logOK_appendState _ n.task.title "skipped" h)
    · exact h

theorem logOK_initState (tasks : List Task) (ctx0 : Obj) :
    logOK (initState tasks ctx0) := by
  unfold initState
  exact logOK_refresh _ ⟨rfl, rfl, rfl⟩

/-- Claim C10: in every reachable state of a run, the renderer log opens
with the one and only `start` event (so `renderer.start(nodes)` precedes
every node execution), and contains exactly one `stop` exactly when the
promise returned by `run` has settled — whether it resolved with the
context or rejected with an error (`run`'s `try`/`finally`). -/
theorem c10_renderer_start_stop (tasks : List Task) (ctx0 : Obj) (s : GState)
    (hr : Reachable tasks ctx0 s) :
    s.log.head? = some Update.start ∧
    s.log.count Update.start = 1 ∧
    s.log.count Update.stop = (if s.settled = none then 0 else 1) := by
  induction hr with
  | init => exact logOK_initState tasks ctx0
  | step hprev hcan ih => exact logOK_complete _ _ ih

/-- Witness for C10 at a concrete input: the single-task graph `[wTask]`
right after its initial admission pass. -/
theorem c10_renderer_start_stop_witness :
    (initState [wTask] []).log.head? = some Update.start ∧
    (initState [wTask] []).log.count Update.start = 1 ∧
    (initState [wTask] []).log.count Update.stop =
      (if (initState [wTask] []).settled = none then 0 else 1) :=
  c10_renderer_start_stop [wTask] [] _ Reachable.init

/-- Witness for C9 at concrete inputs: `wTask` (one `provides` key,
falsy return) puts `{a: true}` into the context; `wTask2` (two keys,
falsy return) rejects the run with the `provides multiple results`
message. -/
theorem c9_falsy_result_witness :
    synthFalsy wTask none = Except.ok [("a", Value.vbool true)] ∧
    (applyResult wState 0 wNode [("a", Value.vbool true)]).context =
      wState.context ++ [("a", Value.vbool true)] ∧
    (complete wState2 0).settled = some (some
      "Task T2 provides multiple results, but did not return any values") := by
  have h := c9_falsy_result wState 0 wNode
  have h2 := c9_falsy_result wState2 0 wNode2
  refine ⟨(h.2.1 "a" rfl).1, (h.2.1 "a" rfl).2 (by decide), ?_⟩
  exact (h2.2.2 (by decide)).2 rfl rfl rfl rfl rfl

end TG

